import Mathlib

/-!
Verification of the statement-execution engine of the field-mapping DSL
in `src/mapping/mod.rs`: the `Function` statement variants (`Assignment`,
`Deletion`, `OnlyFields`, `IfStatement`, `Noop`, `MergeFn`, `LogFn`), the
sequential executor `Mapping::execute`, and the recursive `merge_maps`
algorithm.  The event/record storage layer (`crate::event`: `Value`,
`LookupBuf`, and the path-addressed `get` / `insert` / `remove` / `keys`
operations) and the query subsystem (`QueryValue` and expressions) are
external to the translated file and are modelled from the specification's
capability contracts.
-/

namespace VectorMapping

/-- The event `Value` tree (`crate::event::Value`): a tagged union of scalar
kinds and `Map`, an ordered mapping of string keys to values (a `BTreeMap`
in the source).  Only the `boolean` and `map` variants are structurally
inspected by the engine; `str` and `int` stand for the opaque scalar kinds
it passes through. -/
inductive Value where
  | str : String → Value
  | int : Int → Value
  | boolean : Bool → Value
  | map : List (String × Value) → Value

/-- A structured path (`LookupBuf`): an ordered sequence of field-name
segments. -/
abbrev LookupBuf := List String

/-- The representation of an ordered string-keyed map (`BTreeMap<String, Value>`),
as its ordered list of key/value entries. -/
abbrev ValueMap := List (String × Value)

/-- The record being transformed (an `Event`'s log): its top-level map. -/
abbrev Event := ValueMap

/-- Display of a `LookupBuf` (`self.to_path` rendered into the merge error
message): segments joined by dots. -/
def lookupToString (p : LookupBuf) : String :=
  String.intercalate "." p

/-- Modelled from the spec (record/storage contract, `crate::event` is not in
the translated sources): lookup of a top-level key in a map. -/
def mapGet : ValueMap → String → Option Value
  | [], _ => none
  | (k', v') :: rest, k => if k = k' then some v' else mapGet rest k

/-- Modelled from the spec (record/storage contract): insertion of a binding
into an ordered map, overwriting the binding of an existing key and keeping
the entries ordered by key. -/
def mapInsert : ValueMap → String → Value → ValueMap
  | [], k, v => [(k, v)]
  | (k', v') :: rest, k, v =>
    if k < k' then (k, v) :: (k', v') :: rest
    else if k = k' then (k, v) :: rest
    else (k', v') :: mapInsert rest k v

/-- Modelled from the spec (record/storage contract): removal of every
binding of a key from a map. -/
def mapRemoveKey (m : ValueMap) (k : String) : ValueMap :=
  m.filter (fun kv => kv.1 ≠ k)

/-- Modelled from the spec (record/storage contract): resolve a structured
path in a nested map, descending through `map` values; the empty path
resolves to nothing. -/
def getPath (m : ValueMap) : LookupBuf → Option Value
  | [] => none
  | [k] => mapGet m k
  | k :: rest =>
    match mapGet m k with
    | some (Value.map child) => getPath child rest
    | _ => none

/-- Modelled from the spec (record/storage contract): insert a value at a
structured path, creating (or overwriting non-map values with) intermediate
map containers as needed; the empty path inserts nothing. -/
def insertPath (m : ValueMap) : LookupBuf → Value → ValueMap
  | [], _ => m
  | [k], v => mapInsert m k v
  | k :: rest, v =>
    let child : ValueMap :=
      match mapGet m k with
      | some (Value.map c) => c
      | _ => []
    mapInsert m k (Value.map (insertPath child rest v))

/-- Modelled from the spec (record/storage contract):
`remove(path, compact_ancestors)`.  Removes the node addressed by the path
(and with it its whole subtree) when present; returns the new map together
with whether anything was removed.  When `compact` is set, ancestor maps
that the removal left empty are pruned as well. -/
def removePath (m : ValueMap) (p : LookupBuf) (compact : Bool) : ValueMap × Bool :=
  match p with
  | [] => (m, false)
  | [k] =>
    match mapGet m k with
    | some _ => (mapRemoveKey m k, true)
    | none => (m, false)
  | k :: rest =>
    match mapGet m k with
    | some (Value.map child) =>
      let r := removePath child rest compact
      if r.2 then
        if compact && r.1.isEmpty then (mapRemoveKey m k, true)
        else (mapInsert m k (Value.map r.1), true)
      else (m, false)
    | _ => (m, false)

mutual
/-- Modelled from the spec (record/storage contract): the paths enumerated
below a value — none below a scalar, and the keys of a map. -/
def keysOfValue (pre : LookupBuf) : Value → List LookupBuf
  | Value.map child => keysOfMap pre child
  | _ => []

/-- Modelled from the spec (record/storage contract): recursive key
enumeration (`keys(true)`): every path present in the map, parents before
their children, including intermediate composite nodes. -/
def keysOfMap (pre : LookupBuf) : ValueMap → List LookupBuf
  | [] => []
  | (k, v) :: rest =>
    (pre ++ [k]) :: (keysOfValue (pre ++ [k]) v ++ keysOfMap pre rest)
end

/-- Whether the first path starts with (is a descendant of, or equal to) the
second: the second path's segments lead the first's. -/
def startsWith : LookupBuf → LookupBuf → Bool
  | _, [] => true
  | [], _ :: _ => false
  | a :: as, b :: bs => decide (a = b) && startsWith as bs

/-- Coverage of a path `k` by a keep-path `p`, as the specification words
it: `k` equals `p` or `p`'s segments are a proper (or improper) leading
segment sequence of `k`'s. -/
def coveredBy (k p : LookupBuf) : Bool :=
  startsWith k p

/-- Modelled from the spec (the overloaded path comparison `k == &p.into()`
of `crate::event`'s lookup types, used by `OnlyFields`' filter; the spec
leaves its exact relation an open question).  The relation consistent with
the engine's own `check_mapping` test is mutual comparability: one path's
segments lead the other's. -/
def lookupEq (k p : LookupBuf) : Bool :=
  startsWith k p || startsWith p k

/-- Whether a value is the `Map` variant. -/
def isMapValue : Value → Bool
  | Value.map _ => true
  | _ => false

mutual
/-- Merges two maps of values, the second into the first
(`merge_maps` in the source).  For each entry of the second map, in order,
the destination is updated by `mergeEntryStep`. -/
def merge_maps : ValueMap → ValueMap → Bool → ValueMap
  | map1, [], _ => map1
  | map1, (key2, value2) :: rest, deep =>
    merge_maps (mergeEntryStep map1 key2 value2 deep) rest deep
termination_by _ m2 _ => sizeOf m2

/-- The body of `merge_maps`' loop, for one source entry: when `deep` is
set and both maps hold `Map` values at the key, the merge recurses into the
pair of child maps; in every other case the destination's binding is
replaced by the source's value. -/
def mergeEntryStep (map1 : ValueMap) (key2 : String) (value2 : Value) (deep : Bool) : ValueMap :=
  match deep, mapGet map1 key2, value2 with
  | true, some (Value.map child1), Value.map child2 =>
    mapInsert map1 key2 (Value.map (merge_maps child1 child2 deep))
  | _, _, _ => mapInsert map1 key2 value2
termination_by sizeOf value2
end

/-- Modelled from the spec (the query subsystem's `QueryValue`): an
expression's result is either a concrete `Value` or a non-materializable
variant (an unresolved match set), which every statement needing a concrete
value treats as a type error. -/
inductive QueryValue where
  | value : Value → QueryValue
  | regex : QueryValue

/-- Modelled from the spec (the query subsystem's `Function` trait): an
expression evaluates against a record to a `QueryValue` or an error
message; evaluation is side-effect-free. -/
abbrev QueryFn := Event → Except String QueryValue

/-- The log levels used by `LogFn` (`LogLevel` in the source). -/
inductive LogLevel where
  | trace
  | debug
  | info
  | warn
  | error
deriving DecidableEq

/-- `TryFrom<&str> for LogLevel` in the source. -/
def LogLevel.tryFrom : String → Except String LogLevel
  | "trace" => .ok .trace
  | "debug" => .ok .debug
  | "info" => .ok .info
  | "warn" => .ok .warn
  | "error" => .ok .error
  | _ => .error "invalid log level"

mutual
/-- Modelled from the spec (`Value::clone_into_bytes` of `crate::event`
composed with lossy UTF-8 decoding, as `LogFn::apply` does): the textual
rendering of a value.  Lean strings are always valid UTF-8, so the lossy
decoding is the identity on this model's payloads. -/
def valueToLogString : Value → String
  | Value.str s => s
  | Value.int i => toString i
  | Value.boolean b => toString b
  | Value.map entries => "\x7b" ++ mapEntriesToLogString entries ++ "\x7d"

/-- Rendering of a map's entries for `valueToLogString`. -/
def mapEntriesToLogString : List (String × Value) → String
  | [] => ""
  | [(k, v)] => k ++ ": " ++ valueToLogString v
  | (k, v) :: rest => k ++ ": " ++ valueToLogString v ++ ", " ++ mapEntriesToLogString rest
end

/-- The statement variants implementing the `Function` trait of
`src/mapping/mod.rs`: `Assignment`, `Deletion`, `OnlyFields`,
`IfStatement`, `Noop`, `MergeFn` (destination path, `from` expression,
optional `deep` expression) and `LogFn` (message expression, optional
level). -/
inductive Statement where
  | assignment : LookupBuf → QueryFn → Statement
  | deletion : List LookupBuf → Statement
  | onlyFields : List LookupBuf → Statement
  | ifStatement : QueryFn → Statement → Statement → Statement
  | noop : Statement
  | mergeFn : LookupBuf → QueryFn → Option QueryFn → Statement
  | logFn : QueryFn → Option LogLevel → Statement

/-- The observable outcome of applying a statement (or a mapping) to a
record: the `Result<()>` status, the record afterwards, the lines emitted
to the leveled diagnostic sink, and the `(path, compact_ancestors)`
arguments of each call made to the record's `remove` operation. -/
structure ApplyResult where
  status : Except String Unit
  event : Event
  logs : List (LogLevel × String)
  removeCalls : List (LookupBuf × Bool)

/-- The keys `OnlyFields::apply` removes: the record's recursively
enumerated paths, filtered down to those for which no keep-path compares
equal under the overloaded path comparison. -/
def onlyFieldsRemovals (paths : List LookupBuf) (target : Event) : List LookupBuf :=
  (keysOfMap [] target).filter
    (fun k => (paths.find? (fun p => lookupEq k p)).isNone)

/-- Sequential removal of a list of paths from a record, each call passing
the same `compact_ancestors` flag (the `for` loops of `Deletion::apply` and
`OnlyFields::apply`). -/
def foldRemove (compact : Bool) (ev : Event) (paths : List LookupBuf) : Event :=
  paths.foldl (fun ev p => (removePath ev p compact).1) ev

/-- Resolution of `MergeFn`'s `deep` parameter: `false` when absent;
otherwise the expression must yield a concrete Boolean. -/
def evalDeepParam (deepFn : Option QueryFn) (target : Event) : Except String Bool :=
  match deepFn with
  | none => Except.ok false
  | some d =>
    match d target with
    | Except.error e => Except.error e
    | Except.ok (QueryValue.value (Value.boolean b)) => Except.ok b
    | Except.ok _ => Except.error "deep parameter passed to merge is a non-boolean value"

/-- `Function::apply` of each statement variant, translated from
`src/mapping/mod.rs`.  `Deletion` removes each path with
`compact_ancestors = false`; `OnlyFields` removes each non-kept key with
`compact_ancestors = true`; `MergeFn` evaluates `from`, then `deep`, then
resolves the destination, then requires both operands to be maps. -/
def Statement.apply : Statement → Event → ApplyResult
  | Statement.assignment path f, target =>
    match f target with
    | Except.error e => ⟨Except.error e, target, [], []⟩
    | Except.ok (QueryValue.value v) => ⟨Except.ok (), insertPath target path v, [], []⟩
    | Except.ok _ => ⟨Except.error "assignment must be from a value", target, [], []⟩
  | Statement.deletion paths, target =>
    ⟨Except.ok (), foldRemove false target paths, [],
      paths.map (fun p => (p, false))⟩
  | Statement.onlyFields paths, target =>
    let keys := onlyFieldsRemovals paths target
    ⟨Except.ok (), foldRemove true target keys, [],
      keys.map (fun k => (k, true))⟩
  | Statement.ifStatement q t f, target =>
    match q target with
    | Except.error e => ⟨Except.error e, target, [], []⟩
    | Except.ok (QueryValue.value (Value.boolean true)) => t.apply target
    | Except.ok (QueryValue.value (Value.boolean false)) => f.apply target
    | Except.ok _ => ⟨Except.error "query returned non-boolean value", target, [], []⟩
  | Statement.noop, target => ⟨Except.ok (), target, [], []⟩
  | Statement.mergeFn to_path fromFn deepFn, target =>
    match fromFn target with
    | Except.error e => ⟨Except.error e, target, [], []⟩
    | Except.ok from_value =>
      match evalDeepParam deepFn target with
      | Except.error e => ⟨Except.error e, target, [], []⟩
      | Except.ok deep =>
        match getPath target to_path with
        | none =>
          ⟨Except.error
            (s!"parameter {lookupToString to_path} passed to merge is not found"),
            target, [], []⟩
        | some to_value =>
          match to_value, from_value with
          | Value.map map1, QueryValue.value (Value.map map2) =>
            ⟨Except.ok (),
              insertPath target to_path (Value.map (merge_maps map1 map2 deep)), [], []⟩
          | _, _ => ⟨Except.error "parameters passed to merge are non-map values", target, [], []⟩
  | Statement.logFn msgFn levelOpt, target =>
    match msgFn target with
    | Except.error e => ⟨Except.error e, target, [], []⟩
    | Except.ok (QueryValue.value v) =>
      ⟨Except.ok (), target, [(levelOpt.getD LogLevel.info, valueToLogString v)], []⟩
    | Except.ok _ => ⟨Except.error "Can only log Value parameters", target, [], []⟩

/-- A compiled mapping program: its ordered statements (the `assignments`
field of `Mapping` in the source). -/
structure Mapping where
  assignments : List Statement

/-- The indexed loop body of `Mapping::execute`: apply each statement in
order; on the first failure stop and wrap the error with the failing
index. -/
def executeGo : Nat → List Statement → Event → ApplyResult
  | _, [], ev => ⟨Except.ok (), ev, [], []⟩
  | i, s :: rest, ev =>
    let r := s.apply ev
    match r.status with
    | Except.error err =>
      ⟨Except.error (s!"failed to apply mapping {i}: {err}"), r.event, r.logs, r.removeCalls⟩
    | Except.ok _ =>
      let r2 := executeGo (i + 1) rest r.event
      ⟨r2.status, r2.event, r.logs ++ r2.logs, r.removeCalls ++ r2.removeCalls⟩

/-- `Mapping::execute`, translated from the source. -/
def Mapping.execute (m : Mapping) (ev : Event) : ApplyResult :=
  executeGo 0 m.assignments ev

/-- Sequential all-success run of a statement list: the record after every
statement applied in order, or `none` as soon as one fails. -/
def runOk : List Statement → Event → Option Event
  | [], ev => some ev
  | s :: rest, ev =>
    match (s.apply ev).status with
    | Except.ok _ => runOk rest (s.apply ev).event
    | Except.error _ => none

/-- Whether `MergeFn`'s resolved destination value and evaluated `from`
result are both `Map` variants. -/
def bothMapOperands : Value → QueryValue → Bool
  | Value.map _, QueryValue.value (Value.map _) => true
  | _, _ => false

section MapLemmas

theorem mapGet_mapInsert_self (m : ValueMap) (k : String) (v : Value) :
    mapGet (mapInsert m k v) k = some v := by
  induction m with
  | nil => simp [mapInsert, mapGet]
  | cons hd tl ih =>
    obtain ⟨k', v'⟩ := hd
    by_cases h1 : k < k'
    · simp [mapInsert, h1, mapGet]
    · by_cases h2 : k = k'
      · simp [mapInsert, h1, h2, mapGet]
      · simp [mapInsert, h1, h2, mapGet, ih]

theorem mapGet_mapInsert_ne (m : ValueMap) (k j : String) (v : Value) (h : j ≠ k) :
    mapGet (mapInsert m k v) j = mapGet m j := by
  induction m with
  | nil => simp [mapInsert, mapGet, h]
  | cons hd tl ih =>
    obtain ⟨k', v'⟩ := hd
    by_cases h1 : k < k'
    · simp [mapInsert, h1, mapGet, h]
    · by_cases h2 : k = k'
      · subst h2
        simp [mapInsert, h1, mapGet, h]
      · by_cases h3 : j = k'
        · simp [mapInsert, h1, h2, mapGet, h3]
        · simp [mapInsert, h1, h2, mapGet, h3, ih]

theorem mapGet_mapRemoveKey_self (m : ValueMap) (k : String) :
    mapGet (mapRemoveKey m k) k = none := by
  induction m with
  | nil => simp [mapRemoveKey, mapGet]
  | cons hd tl ih =>
    obtain ⟨k', v'⟩ := hd
    by_cases h : k' = k
    · simpa [mapRemoveKey, List.filter, h] using ih
    · have hne : k ≠ k' := fun hh => h hh.symm
      simpa [mapRemoveKey, List.filter, h, mapGet, hne] using ih

theorem mapGet_mapRemoveKey_ne (m : ValueMap) (k j : String) (h : j ≠ k) :
    mapGet (mapRemoveKey m k) j = mapGet m j := by
  induction m with
  | nil => simp [mapRemoveKey, mapGet]
  | cons hd tl ih =>
    obtain ⟨k', v'⟩ := hd
    by_cases h1 : k' = k
    · subst h1
      simpa [mapRemoveKey, List.filter, mapGet, h] using ih
    · by_cases h2 : j = k'
      · simp [mapRemoveKey, List.filter, h1, mapGet, h2]
      · simpa [mapRemoveKey, List.filter, h1, mapGet, h2] using ih

theorem mapGet_eq_none_of_not_mem (m : ValueMap) (k : String)
    (h : k ∉ m.map Prod.fst) : mapGet m k = none := by
  induction m with
  | nil => simp [mapGet]
  | cons hd tl ih =>
    obtain ⟨k', v'⟩ := hd
    simp only [List.map_cons, List.mem_cons] at h
    push_neg at h
    simp [mapGet, h.1, ih h.2]

end MapLemmas

section StartsWithLemmas

theorem startsWith_nil_right (p : LookupBuf) : startsWith p [] = true := by
  cases p <;> rfl

theorem startsWith_refl (p : LookupBuf) : startsWith p p = true := by
  induction p with
  | nil => rfl
  | cons a as ih => simp [startsWith, ih]

theorem eq_nil_of_startsWith_nil {p : LookupBuf} (h : startsWith [] p = true) :
    p = [] := by
  cases p with
  | nil => rfl
  | cons b bs => simp [startsWith] at h

theorem startsWith_trans {a b c : LookupBuf} (h1 : startsWith a b = true)
    (h2 : startsWith b c = true) : startsWith a c = true := by
  induction a generalizing b c with
  | nil =>
    have hb := eq_nil_of_startsWith_nil h1
    subst hb
    exact h2
  | cons a0 as ih =>
    cases b with
    | nil =>
      have hc := eq_nil_of_startsWith_nil h2
      subst hc
      exact startsWith_nil_right _
    | cons b0 bs =>
      cases c with
      | nil => exact startsWith_nil_right _
      | cons c0 cs =>
        simp only [startsWith, Bool.and_eq_true, decide_eq_true_eq] at h1 h2 ⊢
        exact ⟨h1.1.trans h2.1, ih h1.2 h2.2⟩

theorem startsWith_total {k p q : LookupBuf} (hp : startsWith k p = true)
    (hq : startsWith k q = true) :
    startsWith p q = true ∨ startsWith q p = true := by
  induction k generalizing p q with
  | nil =>
    have hp' := eq_nil_of_startsWith_nil hp
    subst hp'
    exact Or.inr (startsWith_nil_right _)
  | cons k0 ks ih =>
    cases p with
    | nil => exact Or.inr (startsWith_nil_right _)
    | cons p0 ps =>
      cases q with
      | nil => exact Or.inl (startsWith_nil_right _)
      | cons q0 qs =>
        simp only [startsWith, Bool.and_eq_true, decide_eq_true_eq] at hp hq
        have hpq : p0 = q0 := hp.1.symm.trans hq.1
        rcases ih hp.2 hq.2 with h | h
        · exact Or.inl (by simp [startsWith, hpq, h])
        · exact Or.inr (by simp [startsWith, hpq, h])

end StartsWithLemmas

section RemoveLemmas

theorem getPath_nil_map (ks : LookupBuf) : getPath ([] : ValueMap) ks = none := by
  rcases ks with _ | ⟨a, _ | ⟨b, bs⟩⟩ <;> rfl

theorem getPath_nil_path (m : ValueMap) : getPath m [] = none := rfl

theorem removePath_snd_false {m : ValueMap} {p : LookupBuf} {c : Bool}
    (h : (removePath m p c).2 = false) :
    (removePath m p c).1 = m ∧ getPath m p = none := by
  induction p generalizing m with
  | nil => exact ⟨rfl, rfl⟩
  | cons j rest ih =>
    cases rest with
    | nil =>
      rcases hv : mapGet m j with _ | v
      · constructor
        · simp [removePath, hv]
        · simp [getPath, hv]
      · exfalso
        simp [removePath, hv] at h
    | cons r rs =>
      rcases hv : mapGet m j with _ | v
      · constructor
        · simp [removePath, hv]
        · simp [getPath, hv]
      · cases v with
        | map child =>
          rcases hr : (removePath child (r :: rs) c).2 with _ | _
          · constructor
            · simp [removePath, hv, hr]
            · have := (ih hr).2
              simp [getPath, hv, this]
          · exfalso
            rcases hcp : (c && (removePath child (r :: rs) c).1.isEmpty) with _ | _
            · simp [removePath, hv, hr, hcp] at h
            · simp [removePath, hv, hr, hcp] at h
        | str s =>
          constructor
          · simp [removePath, hv]
          · simp [getPath, hv]
        | int i =>
          constructor
          · simp [removePath, hv]
          · simp [getPath, hv]
        | boolean b =>
          constructor
          · simp [removePath, hv]
          · simp [getPath, hv]

theorem removePath_not_found {m : ValueMap} {p : LookupBuf} {c : Bool}
    (h : getPath m p = none) : removePath m p c = (m, false) := by
  induction p generalizing m with
  | nil => rfl
  | cons j rest ih =>
    cases rest with
    | nil =>
      have hv : mapGet m j = none := by simpa [getPath] using h
      simp [removePath, hv]
    | cons r rs =>
      rcases hv : mapGet m j with _ | v
      · simp [removePath, hv]
      · cases v with
        | map child =>
          have hc : getPath child (r :: rs) = none := by simpa [getPath, hv] using h
          simp [removePath, hv, ih hc]
        | str s => simp [removePath, hv]
        | int i => simp [removePath, hv]
        | boolean b => simp [removePath, hv]

theorem getPath_removePath_self (m : ValueMap) (p : LookupBuf) (c : Bool) :
    getPath (removePath m p c).1 p = none := by
  induction p generalizing m with
  | nil => rfl
  | cons j rest ih =>
    cases rest with
    | nil =>
      rcases hv : mapGet m j with _ | v
      · simp [removePath, hv, getPath]
      · simp [removePath, hv, getPath, mapGet_mapRemoveKey_self]
    | cons r rs =>
      rcases hv : mapGet m j with _ | v
      · simp [removePath, hv, getPath]
      · cases v with
        | map child =>
          rcases hr : (removePath child (r :: rs) c).2 with _ | _
          · have h2 := (removePath_snd_false hr).2
            simp [removePath, hv, hr, getPath, h2]
          · rcases hcp : (c && (removePath child (r :: rs) c).1.isEmpty) with _ | _
            · simp [removePath, hv, hr, hcp, getPath, mapGet_mapInsert_self, ih]
            · simp [removePath, hv, hr, hcp, getPath, mapGet_mapRemoveKey_self]
        | str s => simp [removePath, hv, getPath]
        | int i => simp [removePath, hv, getPath]
        | boolean b => simp [removePath, hv, getPath]

theorem getPath_congr_head {m1 m2 : ValueMap} {a : String}
    (h : mapGet m1 a = mapGet m2 a) (ks : LookupBuf) :
    getPath m1 (a :: ks) = getPath m2 (a :: ks) := by
  rcases ks with _ | ⟨b, bs⟩
  · simp [getPath, h]
  · simp [getPath, h]

theorem getPath_mapRemoveKey_head (m : ValueMap) (j : String) (ks : LookupBuf) :
    getPath (mapRemoveKey m j) (j :: ks) = none := by
  rcases ks with _ | ⟨b, bs⟩
  · simp [getPath, mapGet_mapRemoveKey_self]
  · simp [getPath, mapGet_mapRemoveKey_self]

theorem getPath_mapInsert_head_nil (m : ValueMap) (j : String) (w : Value) :
    getPath (mapInsert m j w) [j] = some w := by
  simp [getPath, mapGet_mapInsert_self]

theorem getPath_mapInsert_head_map (m : ValueMap) (j : String) (c : ValueMap)
    (b : String) (bs : LookupBuf) :
    getPath (mapInsert m j (Value.map c)) (j :: b :: bs) = getPath c (b :: bs) := by
  simp [getPath, mapGet_mapInsert_self]

theorem getPath_removePath_isSome {m : ValueMap} {p k : LookupBuf} {c : Bool}
    (h : (getPath (removePath m p c).1 k).isSome = true) :
    (getPath m k).isSome = true := by
  induction p generalizing m k with
  | nil => exact h
  | cons j rest ih =>
    cases rest with
    | nil =>
      rcases hv : mapGet m j with _ | v
      · simpa [removePath, hv] using h
      · have hfst : (removePath m [j] c).1 = mapRemoveKey m j := by simp [removePath, hv]
        rw [hfst] at h
        rcases k with _ | ⟨a, ks⟩
        · simp [getPath_nil_path] at h
        · by_cases haj : a = j
          · subst haj
            rw [getPath_mapRemoveKey_head] at h
            simp at h
          · rwa [getPath_congr_head (mapGet_mapRemoveKey_ne m j a haj) ks] at h
    | cons r rs =>
      rcases hv : mapGet m j with _ | v
      · simpa [removePath, hv] using h
      · cases v with
        | map child =>
          rcases hr : (removePath child (r :: rs) c).2 with _ | _
          · have hfst : (removePath m (j :: r :: rs) c).1 = m := by
              simp [removePath, hv, hr]
            rwa [hfst] at h
          · rcases hcp : (c && (removePath child (r :: rs) c).1.isEmpty) with _ | _
            · have hfst : (removePath m (j :: r :: rs) c).1
                  = mapInsert m j (Value.map (removePath child (r :: rs) c).1) := by
                simp [removePath, hv, hr, hcp]
              rw [hfst] at h
              rcases k with _ | ⟨a, ks⟩
              · simp [getPath_nil_path] at h
              · by_cases haj : a = j
                · subst haj
                  rcases ks with _ | ⟨b, bs⟩
                  · simp [getPath, hv]
                  · rw [getPath_mapInsert_head_map] at h
                    have h2 := ih h
                    simpa [getPath, hv] using h2
                · rwa [getPath_congr_head (mapGet_mapInsert_ne m j a _ haj) ks] at h
            · have hfst : (removePath m (j :: r :: rs) c).1 = mapRemoveKey m j := by
                simp [removePath, hv, hr, hcp]
              rw [hfst] at h
              rcases k with _ | ⟨a, ks⟩
              · simp [getPath_nil_path] at h
              · by_cases haj : a = j
                · subst haj
                  rw [getPath_mapRemoveKey_head] at h
                  simp at h
                · rwa [getPath_congr_head (mapGet_mapRemoveKey_ne m j a haj) ks] at h
        | str s => simpa [removePath, hv] using h
        | int i => simpa [removePath, hv] using h
        | boolean b => simpa [removePath, hv] using h

theorem getPath_removePath_unrelated {m : ValueMap} {p k : LookupBuf} {c : Bool}
    (h1 : startsWith k p = false) (h2 : startsWith p k = false) :
    getPath (removePath m p c).1 k = getPath m k := by
  induction p generalizing m k with
  | nil => rfl
  | cons j rest ih =>
    cases rest with
    | nil =>
      rcases hv : mapGet m j with _ | v
      · simp [removePath, hv]
      · have hfst : (removePath m [j] c).1 = mapRemoveKey m j := by simp [removePath, hv]
        rw [hfst]
        rcases k with _ | ⟨a, ks⟩
        · simp [getPath_nil_path]
        · have haj : a ≠ j := by
            intro e
            subst e
            simp [startsWith, startsWith_nil_right] at h1
          exact getPath_congr_head (mapGet_mapRemoveKey_ne m j a haj) ks
    | cons r rs =>
      rcases hv : mapGet m j with _ | v
      · simp [removePath, hv]
      · cases v with
        | map child =>
          rcases hr : (removePath child (r :: rs) c).2 with _ | _
          · simp [removePath, hv, hr]
          · rcases k with _ | ⟨a, ks⟩
            · rcases hcp : (c && (removePath child (r :: rs) c).1.isEmpty) with _ | _ <;>
                simp [removePath, hv, hr, hcp, getPath_nil_path]
            · by_cases haj : a = j
              · subst haj
                have h1' : startsWith ks (r :: rs) = false := by
                  simpa [startsWith] using h1
                have h2' : startsWith (r :: rs) ks = false := by
                  simpa [startsWith] using h2
                rcases ks with _ | ⟨b, bs⟩
                · exfalso
                  simp [startsWith_nil_right] at h2'
                · rcases hcp : (c && (removePath child (r :: rs) c).1.isEmpty) with _ | _
                  · have hfst : (removePath m (a :: r :: rs) c).1
                        = mapInsert m a (Value.map (removePath child (r :: rs) c).1) := by
                      simp [removePath, hv, hr, hcp]
                    rw [hfst, getPath_mapInsert_head_map]
                    have hrhs : getPath m (a :: b :: bs) = getPath child (b :: bs) := by
                      simp [getPath, hv]
                    rw [hrhs]
                    exact ih h1' h2'
                  · have hfst : (removePath m (a :: r :: rs) c).1 = mapRemoveKey m a := by
                      simp [removePath, hv, hr, hcp]
                    rw [hfst, getPath_mapRemoveKey_head]
                    have hempty : (removePath child (r :: rs) c).1 = [] := by
                      rcases Bool.and_eq_true _ _ |>.mp hcp with ⟨_, he⟩
                      exact List.isEmpty_iff.mp he
                    have hih := ih (m := child) h1' h2'
                    rw [hempty, getPath_nil_map] at hih
                    have hrhs : getPath m (a :: b :: bs) = getPath child (b :: bs) := by
                      simp [getPath, hv]
                    rw [hrhs, ← hih]
              · rcases hcp : (c && (removePath child (r :: rs) c).1.isEmpty) with _ | _
                · have hfst : (removePath m (j :: r :: rs) c).1
                      = mapInsert m j (Value.map (removePath child (r :: rs) c).1) := by
                    simp [removePath, hv, hr, hcp]
                  rw [hfst]
                  exact getPath_congr_head (mapGet_mapInsert_ne m j a _ haj) ks
                · have hfst : (removePath m (j :: r :: rs) c).1 = mapRemoveKey m j := by
                    simp [removePath, hv, hr, hcp]
                  rw [hfst]
                  exact getPath_congr_head (mapGet_mapRemoveKey_ne m j a haj) ks
        | str s => simp [removePath, hv]
        | int i => simp [removePath, hv]
        | boolean b => simp [removePath, hv]

theorem getPath_removePath_noCompact {m : ValueMap} {p k : LookupBuf} {v : Value}
    (hk : getPath m k = some v) (h1 : startsWith k p = false) :
    ∃ w, getPath (removePath m p false).1 k = some w := by
  induction p generalizing m k v with
  | nil => exact ⟨v, hk⟩
  | cons j rest ih =>
    cases rest with
    | nil =>
      rcases hv : mapGet m j with _ | w0
      · exact ⟨v, by simpa [removePath, hv] using hk⟩
      · have hfst : (removePath m [j] false).1 = mapRemoveKey m j := by simp [removePath, hv]
        rcases k with _ | ⟨a, ks⟩
        · rw [getPath_nil_path] at hk
          cases hk
        · have haj : a ≠ j := by
            intro e
            subst e
            simp [startsWith, startsWith_nil_right] at h1
          refine ⟨v, ?_⟩
          rw [hfst, getPath_congr_head (mapGet_mapRemoveKey_ne m j a haj) ks]
          exact hk
    | cons r rs =>
      rcases hv : mapGet m j with _ | w0
      · exact ⟨v, by simpa [removePath, hv] using hk⟩
      · cases w0 with
        | map child =>
          rcases hr : (removePath child (r :: rs) false).2 with _ | _
          · exact ⟨v, by simpa [removePath, hv, hr] using hk⟩
          · have hfst : (removePath m (j :: r :: rs) false).1
                = mapInsert m j (Value.map (removePath child (r :: rs) false).1) := by
              simp [removePath, hv, hr]
            rcases k with _ | ⟨a, ks⟩
            · rw [getPath_nil_path] at hk
              cases hk
            · by_cases haj : a = j
              · subst haj
                have h1' : startsWith ks (r :: rs) = false := by
                  simpa [startsWith] using h1
                rcases ks with _ | ⟨b, bs⟩
                · exact ⟨Value.map (removePath child (r :: rs) false).1, by
                    rw [hfst, getPath_mapInsert_head_nil]⟩
                · have hk' : getPath child (b :: bs) = some v := by
                    simpa [getPath, hv] using hk
                  obtain ⟨w, hw⟩ := ih hk' h1'
                  exact ⟨w, by rw [hfst, getPath_mapInsert_head_map]; exact hw⟩
              · refine ⟨v, ?_⟩
                rw [hfst, getPath_congr_head (mapGet_mapInsert_ne m j a _ haj) ks]
                exact hk
        | str s => exact ⟨v, by simpa [removePath, hv] using hk⟩
        | int i => exact ⟨v, by simpa [removePath, hv] using hk⟩
        | boolean b => exact ⟨v, by simpa [removePath, hv] using hk⟩

theorem foldRemove_nil (c : Bool) (ev : Event) : foldRemove c ev [] = ev := rfl

theorem foldRemove_cons (c : Bool) (ev : Event) (q : LookupBuf) (qs : List LookupBuf) :
    foldRemove c ev (q :: qs) = foldRemove c (removePath ev q c).1 qs := rfl

theorem getPath_foldRemove_unrelated {c : Bool} {ev : Event} {L : List LookupBuf}
    {k : LookupBuf} (h : ∀ q ∈ L, startsWith k q = false ∧ startsWith q k = false) :
    getPath (foldRemove c ev L) k = getPath ev k := by
  induction L generalizing ev with
  | nil => rfl
  | cons q qs ih =>
    rw [foldRemove_cons, ih (fun q' hq' => h q' (List.mem_cons_of_mem _ hq')),
      getPath_removePath_unrelated (h q (List.mem_cons_self _ _)).1
        (h q (List.mem_cons_self _ _)).2]

theorem getPath_foldRemove_isSome {c : Bool} {ev : Event} {L : List LookupBuf}
    {k : LookupBuf} (h : (getPath (foldRemove c ev L) k).isSome = true) :
    (getPath ev k).isSome = true := by
  induction L generalizing ev with
  | nil => exact h
  | cons q qs ih =>
    rw [foldRemove_cons] at h
    exact getPath_removePath_isSome (ih h)

theorem getPath_foldRemove_none {c : Bool} {ev : Event} {L : List LookupBuf}
    {k : LookupBuf} (h : getPath ev k = none) :
    getPath (foldRemove c ev L) k = none := by
  rcases h2 : getPath (foldRemove c ev L) k with _ | w
  · rfl
  · exfalso
    have := @getPath_foldRemove_isSome c ev L k (by simp [h2])
    simp [h] at this

theorem getPath_foldRemove_mem {c : Bool} {ev : Event} {L : List LookupBuf}
    {k : LookupBuf} (h : k ∈ L) :
    getPath (foldRemove c ev L) k = none := by
  induction L generalizing ev with
  | nil => cases h
  | cons q qs ih =>
    rw [foldRemove_cons]
    rcases List.mem_cons.mp h with h | h
    · subst h
      exact getPath_foldRemove_none (getPath_removePath_self ev k c)
    · exact ih h

theorem getPath_foldRemove_noCompact {ev : Event} {L : List LookupBuf}
    {k : LookupBuf} {v : Value} (hk : getPath ev k = some v)
    (h : ∀ q ∈ L, startsWith k q = false) :
    ∃ w, getPath (foldRemove false ev L) k = some w := by
  induction L generalizing ev v with
  | nil => exact ⟨v, hk⟩
  | cons q qs ih =>
    rw [foldRemove_cons]
    obtain ⟨w, hw⟩ :=
      getPath_removePath_noCompact hk (h q (List.mem_cons_self _ _))
    exact ih hw (fun q' hq' => h q' (List.mem_cons_of_mem _ hq'))

end RemoveLemmas

section KeysLemmas

theorem mem_keysOfMap_head {m : ValueMap} {a : String} {v : Value}
    (h : mapGet m a = some v) (pre : LookupBuf) :
    (pre ++ [a]) ∈ keysOfMap pre m := by
  induction m with
  | nil => cases h
  | cons hd tl ih =>
    obtain ⟨a', v'⟩ := hd
    by_cases haa : a = a'
    · subst haa
      simp [keysOfMap]
    · rw [show mapGet ((a', v') :: tl) a = mapGet tl a by simp [mapGet, haa]] at h
      simp [keysOfMap]
      right
      right
      exact ih h

theorem mem_keysOfMap_child {m : ValueMap} {a : String} {w : Value} {x : LookupBuf}
    (h : mapGet m a = some w) (pre : LookupBuf)
    (hx : x ∈ keysOfValue (pre ++ [a]) w) :
    x ∈ keysOfMap pre m := by
  induction m with
  | nil => cases h
  | cons hd tl ih =>
    obtain ⟨a', v'⟩ := hd
    by_cases haa : a = a'
    · subst haa
      rw [show mapGet ((a, v') :: tl) a = some v' by simp [mapGet]] at h
      injection h with h
      subst h
      simp [keysOfMap]
      right
      left
      exact hx
    · rw [show mapGet ((a', v') :: tl) a = mapGet tl a by simp [mapGet, haa]] at h
      simp [keysOfMap]
      right
      right
      exact ih h

theorem getPath_mem_keysOfMap {m : ValueMap} {k : LookupBuf} {v : Value}
    (h : getPath m k = some v) (pre : LookupBuf) :
    (pre ++ k) ∈ keysOfMap pre m := by
  induction k generalizing m v pre with
  | nil => cases h
  | cons a ks ih =>
    cases ks with
    | nil =>
      have hv : mapGet m a = some v := by simpa [getPath] using h
      exact mem_keysOfMap_head hv pre
    | cons b bs =>
      rcases hv : mapGet m a with _ | w
      · rw [show getPath m (a :: b :: bs) = none by simp [getPath, hv]] at h
        cases h
      · cases w with
        | map child =>
          have h' : getPath child (b :: bs) = some v := by simpa [getPath, hv] using h
          have hmem := ih h' (pre ++ [a])
          have := mem_keysOfMap_child hv pre (x := (pre ++ [a]) ++ (b :: bs))
            (by simpa [keysOfValue] using hmem)
          rw [List.append_assoc] at this
          exact this
        | str s =>
          rw [show getPath m (a :: b :: bs) = none by simp [getPath, hv]] at h
          cases h
        | int i =>
          rw [show getPath m (a :: b :: bs) = none by simp [getPath, hv]] at h
          cases h
        | boolean bb =>
          rw [show getPath m (a :: b :: bs) = none by simp [getPath, hv]] at h
          cases h

end KeysLemmas

section OnlyFieldsLemmas

theorem foldRemove_all_absent {c : Bool} {ev : Event} {L : List LookupBuf}
    (h : ∀ p ∈ L, getPath ev p = none) : foldRemove c ev L = ev := by
  induction L with
  | nil => rfl
  | cons q qs ih =>
    rw [foldRemove_cons, removePath_not_found (h q (List.mem_cons_self _ _))]
    exact ih (fun p hp => h p (List.mem_cons_of_mem _ hp))

theorem mem_onlyFieldsRemovals_unrel {paths : List LookupBuf} {ev : Event}
    {q : LookupBuf} (h : q ∈ onlyFieldsRemovals paths ev) :
    ∀ p ∈ paths, lookupEq q p = false := by
  intro p hp
  simp only [onlyFieldsRemovals] at h
  have h2 := (List.mem_filter.mp h).2
  rw [Option.isNone_iff_eq_none, List.find?_eq_none] at h2
  have h3 := h2 p hp
  rcases hb : lookupEq q p with _ | _
  · rfl
  · exact absurd hb h3

theorem mem_onlyFieldsRemovals_of {paths : List LookupBuf} {ev : Event}
    {k : LookupBuf} {v : Value} (hk : getPath ev k = some v)
    (h : ∀ p ∈ paths, lookupEq k p = false) :
    k ∈ onlyFieldsRemovals paths ev := by
  simp only [onlyFieldsRemovals]
  apply List.mem_filter.mpr
  refine ⟨?_, ?_⟩
  · have := getPath_mem_keysOfMap hk []
    simpa using this
  · rw [Option.isNone_iff_eq_none, List.find?_eq_none]
    intro p hp
    simp [h p hp]

theorem onlyFields_result_eq (paths : List LookupBuf) (ev : Event) :
    ((Statement.onlyFields paths).apply ev).event
      = foldRemove true ev (onlyFieldsRemovals paths ev) := rfl

theorem onlyFields_keeps_covered {paths : List LookupBuf} {ev : Event}
    {k p : LookupBuf} (hp : p ∈ paths) (hc : coveredBy k p = true) :
    getPath ((Statement.onlyFields paths).apply ev).event k = getPath ev k := by
  rw [onlyFields_result_eq]
  apply getPath_foldRemove_unrelated
  intro q hq
  have hqp : lookupEq q p = false := mem_onlyFieldsRemovals_unrel hq p hp
  rw [lookupEq, Bool.or_eq_false_iff] at hqp
  rw [coveredBy] at hc
  constructor
  · rcases hskq : startsWith k q with _ | _
    · rfl
    · exfalso
      rcases startsWith_total hc hskq with hh | hh
      · rw [hqp.2] at hh
        cases hh
      · rw [hqp.1] at hh
        cases hh
  · rcases hsqk : startsWith q k with _ | _
    · rfl
    · exfalso
      have := startsWith_trans hsqk hc
      rw [hqp.1] at this
      cases this

theorem onlyFields_removes_unrel {paths : List LookupBuf} {ev : Event}
    {k : LookupBuf} {v : Value} (hk : getPath ev k = some v)
    (h : ∀ p ∈ paths, lookupEq k p = false) :
    getPath ((Statement.onlyFields paths).apply ev).event k = none := by
  rw [onlyFields_result_eq]
  exact getPath_foldRemove_mem (mem_onlyFieldsRemovals_of hk h)

theorem onlyFields_remaining_rel {paths : List LookupBuf} {ev : Event}
    {k : LookupBuf} {v : Value}
    (h : getPath ((Statement.onlyFields paths).apply ev).event k = some v) :
    ∃ p, p ∈ paths ∧ lookupEq k p = true := by
  by_contra hno
  push_neg at hno
  have hfalse : ∀ p ∈ paths, lookupEq k p = false := by
    intro p hp
    rcases hb : lookupEq k p with _ | _
    · rfl
    · exact absurd hb (hno p hp)
  rw [onlyFields_result_eq] at h
  have hsome : (getPath ev k).isSome = true :=
    getPath_foldRemove_isSome (c := true) (L := onlyFieldsRemovals paths ev)
      (by rw [h]; rfl)
  obtain ⟨v0, hv0⟩ := Option.isSome_iff_exists.mp hsome
  have hnone := onlyFields_removes_unrel hv0 hfalse
  rw [onlyFields_result_eq] at hnone
  rw [hnone] at h
  cases h

end OnlyFieldsLemmas

section StatementLemmas

theorem apply_err_event (s : Statement) (ev : Event) (e : String)
    (h : (s.apply ev).status = Except.error e) : (s.apply ev).event = ev := by
  induction s generalizing ev e with
  | assignment path f =>
    rcases hf : f ev with e' | qv
    · simp [Statement.apply, hf]
    · cases qv with
      | value v => simp [Statement.apply, hf] at h
      | regex => simp [Statement.apply, hf]
  | deletion paths => simp [Statement.apply] at h
  | onlyFields paths => simp [Statement.apply] at h
  | ifStatement q t f iht ihf =>
    rcases hq : q ev with e' | qv
    · simp [Statement.apply, hq]
    · cases qv with
      | value v =>
        cases v with
        | boolean b =>
          cases b with
          | true =>
            have h' : (t.apply ev).status = Except.error e := by
              simpa [Statement.apply, hq] using h
            have := iht ev e h'
            simpa [Statement.apply, hq] using this
          | false =>
            have h' : (f.apply ev).status = Except.error e := by
              simpa [Statement.apply, hq] using h
            have := ihf ev e h'
            simpa [Statement.apply, hq] using this
        | str s2 => simp [Statement.apply, hq]
        | int i => simp [Statement.apply, hq]
        | map m => simp [Statement.apply, hq]
      | regex => simp [Statement.apply, hq]
  | noop => simp [Statement.apply] at h
  | mergeFn to_path fromFn deepFn =>
    rcases hf : fromFn ev with e' | fv
    · simp [Statement.apply, hf]
    · rcases hd : evalDeepParam deepFn ev with e' | b
      · simp [Statement.apply, hf, hd]
      · rcases hg : getPath ev to_path with _ | tv
        · simp [Statement.apply, hf, hd, hg]
        · cases tv with
          | map m1 =>
            cases fv with
            | value v =>
              cases v with
              | map m2 => simp [Statement.apply, hf, hd, hg] at h
              | str s2 => simp [Statement.apply, hf, hd, hg]
              | int i => simp [Statement.apply, hf, hd, hg]
              | boolean bb => simp [Statement.apply, hf, hd, hg]
            | regex => simp [Statement.apply, hf, hd, hg]
          | str s2 => simp [Statement.apply, hf, hd, hg]
          | int i => simp [Statement.apply, hf, hd, hg]
          | boolean bb => simp [Statement.apply, hf, hd, hg]
  | logFn msgFn lvl =>
    rcases hm : msgFn ev with e' | qv
    · simp [Statement.apply, hm]
    · cases qv with
      | value v => simp [Statement.apply, hm] at h
      | regex => simp [Statement.apply, hm]

end StatementLemmas

/-- C2 counterexample: with keep-path `a.b`, the path `a` is covered by no
keep-path under the specification's covering relation (a keep-path equal to
it or leading it), yet `OnlyFields::apply` leaves `a` — holding its full
map value — in the record, so the claim that exactly the non-covered paths
are removed fails at this input. -/
theorem onlyFields_coverage_cex :
    coveredBy ["a"] ["a", "b"] = false
    ∧ getPath [("a", Value.map [("b", Value.str "1")])] ["a"]
        = some (Value.map [("b", Value.str "1")])
    ∧ getPath ((Statement.onlyFields [["a", "b"]]).apply
          [("a", Value.map [("b", Value.str "1")])]).event ["a"]
        = some (Value.map [("b", Value.str "1")]) :=
  ⟨rfl, rfl, rfl⟩

/-- C2 (amended): `OnlyFields::apply` never errors; it preserves, with
their values, all paths covered by a keep-path (the keep-path equal to the
path or leading it); it removes every path bearing no prefix relation to
any keep-path (neither path leading the other); and every path remaining
afterwards bears a prefix relation to some keep-path — so a strict ancestor
of a keep-path may survive uncovered, and absent keep-paths are simply
ineffective. -/
theorem onlyFields_spec (paths : List LookupBuf) (ev : Event) :
    (((Statement.onlyFields paths).apply ev).status = Except.ok ())
    ∧ (∀ k p, p ∈ paths → coveredBy k p = true →
        getPath ((Statement.onlyFields paths).apply ev).event k = getPath ev k)
    ∧ (∀ k v, getPath ev k = some v → (∀ p ∈ paths, lookupEq k p = false) →
        getPath ((Statement.onlyFields paths).apply ev).event k = none)
    ∧ (∀ k v, getPath ((Statement.onlyFields paths).apply ev).event k = some v →
        ∃ p, p ∈ paths ∧ lookupEq k p = true) :=
  ⟨rfl, fun _ _ hp hc => onlyFields_keeps_covered hp hc,
    fun _ _ hk h => onlyFields_removes_unrel hk h,
    fun _ _ h => onlyFields_remaining_rel h⟩

/-- Witness for C2's amended theorem: a sibling not covered by the single
keep-path `a.b` is removed. -/
theorem onlyFields_spec_witness :
    getPath ((Statement.onlyFields [["a", "b"]]).apply
        [("a", Value.map [("b", Value.str "1"), ("c", Value.str "2")]),
          ("d", Value.str "3")]).event ["d"]
      = none :=
  (onlyFields_spec [["a", "b"]]
      [("a", Value.map [("b", Value.str "1"), ("c", Value.str "2")]),
        ("d", Value.str "3")]).2.2.1
    ["d"] (Value.str "3") rfl (by decide)

/-- C10: `OnlyFields::apply` with an empty keep-path set removes every
enumerable path, leaving a record with no fields, and still succeeds. -/
theorem onlyFields_empty_clears (ev : Event) :
    ((Statement.onlyFields []).apply ev).event = []
    ∧ ((Statement.onlyFields []).apply ev).status = Except.ok () := by
  refine ⟨?_, rfl⟩
  rcases hres : ((Statement.onlyFields []).apply ev).event with _ | ⟨⟨k0, v0⟩, rest⟩
  · rfl
  · exfalso
    have hk : getPath ((Statement.onlyFields []).apply ev).event [k0] = some v0 := by
      rw [hres]
      simp [getPath, mapGet]
    obtain ⟨p, hp, _⟩ := onlyFields_remaining_rel hk
    cases hp

/-- C7: `Deletion::apply` always succeeds; each addressed path is gone
afterwards (removing an absent path is a no-op, never an error); any path
unrelated to every deleted path keeps its exact value; and — since every
removal passes `compact_ancestors = false` — any path that is not a
descendant of a deleted path still exists afterwards, so siblings are
preserved and emptied parent maps are left in place. -/
theorem deletion_spec (paths : List LookupBuf) (ev : Event) :
    (((Statement.deletion paths).apply ev).status = Except.ok ())
    ∧ (∀ p ∈ paths, getPath ((Statement.deletion paths).apply ev).event p = none)
    ∧ ((∀ p ∈ paths, getPath ev p = none) →
        ((Statement.deletion paths).apply ev).event = ev)
    ∧ (∀ k v, getPath ev k = some v → (∀ p ∈ paths, startsWith k p = false) →
        ∃ w, getPath ((Statement.deletion paths).apply ev).event k = some w)
    ∧ (∀ k, (∀ p ∈ paths, startsWith k p = false ∧ startsWith p k = false) →
        getPath ((Statement.deletion paths).apply ev).event k = getPath ev k) :=
  ⟨rfl, fun _ hp => getPath_foldRemove_mem hp,
    fun h => foldRemove_all_absent h,
    fun _ _ hk h => getPath_foldRemove_noCompact hk h,
    fun _ h => getPath_foldRemove_unrelated h⟩

/-- Witness for C7: deleting `foo` removes it, leaves the unrelated `bar`
untouched, and the record after deleting an absent path is unchanged. -/
theorem deletion_spec_witness :
    getPath ((Statement.deletion [["foo"]]).apply
        [("bar", Value.str "baz"), ("foo", Value.str "x")]).event ["foo"]
      = none :=
  (deletion_spec [["foo"]] [("bar", Value.str "baz"), ("foo", Value.str "x")]).2.1
    ["foo"] (by decide)

/-- C5 counterexample: `OnlyFields::apply` calls the record's `remove` with
`compact_ancestors = true`, so the engine does not always pass `false`. -/
theorem remove_compact_cex :
    ((Statement.onlyFields []).apply [("message", Value.str "m")]).removeCalls
      = [(["message"], true)] :=
  rfl

/-- C5 (amended): `Deletion::apply` passes `compact_ancestors = false` on
every `remove` call, while `OnlyFields::apply` passes
`compact_ancestors = true` on every `remove` call — so the field-projection
statement does prune now-empty ancestor containers. -/
theorem remove_compact_flags (paths : List LookupBuf) (ev : Event) :
    (∀ a b, (a, b) ∈ ((Statement.deletion paths).apply ev).removeCalls → b = false)
    ∧ (∀ a b, (a, b) ∈ ((Statement.onlyFields paths).apply ev).removeCalls → b = true) := by
  constructor
  · intro a b hmem
    obtain ⟨p, _, hpe⟩ := List.mem_map.mp hmem
    cases hpe
    rfl
  · intro a b hmem
    obtain ⟨p, _, hpe⟩ := List.mem_map.mp hmem
    cases hpe
    rfl

/-- Witness for C5's amended theorem at a concrete record: the one remove
call of this `OnlyFields` application passes the compacting flag. -/
theorem remove_compact_flags_witness :
    ((["message"] : LookupBuf), true)
        ∈ ((Statement.onlyFields []).apply [("message", Value.str "m")]).removeCalls
    ∧ true = true :=
  ⟨by decide,
    (remove_compact_flags [] [("message", Value.str "m")]).2 ["message"] true (by decide)⟩

/-- C9: whenever a statement's `apply` returns an error the record is left
unchanged — every error branch of every variant (including both branches
reached through `IfStatement`) returns before any mutation, expression
evaluation being side-effect-free. -/
theorem apply_error_frame (s : Statement) (ev : Event) (e : String)
    (h : (s.apply ev).status = Except.error e) : (s.apply ev).event = ev :=
  apply_err_event s ev e h

/-- Witness for C9: a merge whose `from` expression fails leaves the
concrete record untouched. -/
theorem apply_error_frame_witness :
    ((Statement.mergeFn ["x"] (fun _ => Except.error "boom") none).apply
        [("a", Value.str "1")]).event = [("a", Value.str "1")] :=
  apply_error_frame (Statement.mergeFn ["x"] (fun _ => Except.error "boom") none)
    [("a", Value.str "1")] "boom" rfl

section ExecuteLemmas

theorem executeGo_append_ok {l₁ : List Statement} {ev ev₁ : Event}
    (h : runOk l₁ ev = some ev₁) (i : Nat) (rest : List Statement) :
    (executeGo i (l₁ ++ rest) ev).status = (executeGo (i + l₁.length) rest ev₁).status
    ∧ (executeGo i (l₁ ++ rest) ev).event = (executeGo (i + l₁.length) rest ev₁).event := by
  induction l₁ generalizing i ev with
  | nil =>
    have hev : ev = ev₁ := by simpa [runOk] using h
    subst hev
    simp
  | cons s tl ih =>
    rcases hs : (s.apply ev).status with e | u
    · simp [runOk, hs] at h
    · have h' : runOk tl (s.apply ev).event = some ev₁ := by
        simpa [runOk, hs] using h
      have harith : i + (s :: tl).length = i + 1 + tl.length := by
        simp [List.length_cons]
        omega
      rw [harith]
      have hih := ih h' (i + 1)
      constructor
      · show (executeGo i (s :: (tl ++ rest)) ev).status = _
        simp [executeGo, hs]
        exact hih.1
      · show (executeGo i (s :: (tl ++ rest)) ev).event = _
        simp [executeGo, hs]
        exact hih.2

theorem executeGo_error_stop {i : Nat} {s : Statement} {l₂ : List Statement}
    {ev : Event} {e : String} (h : (s.apply ev).status = Except.error e) :
    executeGo i (s :: l₂) ev
      = ⟨Except.error (s!"failed to apply mapping {i}: {e}"), (s.apply ev).event,
          (s.apply ev).logs, (s.apply ev).removeCalls⟩ := by
  simp [executeGo, h]

theorem executeGo_suffix_indep {l₁ : List Statement} {s : Statement}
    {ev ev₁ : Event} {e : String} (h1 : runOk l₁ ev = some ev₁)
    (h2 : (s.apply ev₁).status = Except.error e) (i : Nat) (l₂ : List Statement) :
    executeGo i (l₁ ++ s :: l₂) ev = executeGo i (l₁ ++ [s]) ev := by
  induction l₁ generalizing i ev with
  | nil =>
    have hev : ev = ev₁ := by simpa [runOk] using h1
    subst hev
    rw [List.nil_append, List.nil_append, executeGo_error_stop h2,
      executeGo_error_stop h2]
  | cons s' tl ih =>
    rcases hs : (s'.apply ev).status with e' | u
    · simp [runOk, hs] at h1
    · have h' : runOk tl (s'.apply ev).event = some ev₁ := by
        simpa [runOk, hs] using h1
      show executeGo i (s' :: (tl ++ s :: l₂)) ev = executeGo i (s' :: (tl ++ [s])) ev
      simp [executeGo, hs, ih h']

end ExecuteLemmas

/-- C3: `Mapping::execute` applies the owned statements in order starting
at index 0.  If every statement succeeds it returns success with the
record carrying their cumulative effect; on the first failing statement,
at index `i` with underlying error `e`, it stops immediately with exactly
the error `failed to apply mapping i: e`, the record retains every
mutation of the statements before index `i`, and the statements after
index `i` are never applied (the result does not depend on them). -/
theorem mapping_execute_spec :
    (∀ (l : List Statement) (ev ev' : Event), runOk l ev = some ev' →
      ((Mapping.mk l).execute ev).status = Except.ok ()
      ∧ ((Mapping.mk l).execute ev).event = ev')
    ∧ (∀ (l₁ : List Statement) (s : Statement) (l₂ : List Statement)
        (ev ev₁ : Event) (e : String),
        runOk l₁ ev = some ev₁ → (s.apply ev₁).status = Except.error e →
        ((Mapping.mk (l₁ ++ s :: l₂)).execute ev).status
            = Except.error (s!"failed to apply mapping {l₁.length}: {e}")
        ∧ ((Mapping.mk (l₁ ++ s :: l₂)).execute ev).event = ev₁
        ∧ (Mapping.mk (l₁ ++ s :: l₂)).execute ev
            = (Mapping.mk (l₁ ++ [s])).execute ev) := by
  constructor
  · intro l ev ev' h
    have h2 := executeGo_append_ok h 0 []
    rw [List.append_nil] at h2
    exact ⟨h2.1, h2.2⟩
  · intro l₁ s l₂ ev ev₁ e h1 h2
    have ha := executeGo_append_ok h1 0 (s :: l₂)
    have hstop := @executeGo_error_stop (0 + l₁.length) s l₂ ev₁ e h2
    refine ⟨?_, ?_, executeGo_suffix_indep h1 h2 0 l₂⟩
    · show (executeGo 0 (l₁ ++ s :: l₂) ev).status = _
      rw [ha.1, hstop]
      simp
    · show (executeGo 0 (l₁ ++ s :: l₂) ev).event = ev₁
      rw [ha.2, hstop]
      exact apply_err_event s ev₁ e h2

/-- Witness for C3: a three-statement program whose second statement fails
stops with the wrapped index-1 error. -/
theorem mapping_execute_spec_witness :
    ((Mapping.mk [Statement.noop,
        Statement.logFn (fun _ => Except.ok QueryValue.regex) none,
        Statement.noop]).execute []).status
      = Except.error "failed to apply mapping 1: Can only log Value parameters"
    ∧ ((Mapping.mk [Statement.noop,
        Statement.logFn (fun _ => Except.ok QueryValue.regex) none,
        Statement.noop]).execute []).event = [] :=
  ⟨((mapping_execute_spec.2 [Statement.noop]
      (Statement.logFn (fun _ => Except.ok QueryValue.regex) none)
      [Statement.noop] [] [] "Can only log Value parameters" rfl rfl).1),
    ((mapping_execute_spec.2 [Statement.noop]
      (Statement.logFn (fun _ => Except.ok QueryValue.regex) none)
      [Statement.noop] [] [] "Can only log Value parameters" rfl rfl).2.1)⟩

section MergeMapsLemmas

theorem merge_maps_nil (map1 : ValueMap) (deep : Bool) :
    merge_maps map1 [] deep = map1 := by
  simp [merge_maps]

theorem merge_maps_cons (map1 : ValueMap) (key2 : String) (value2 : Value)
    (rest : ValueMap) (deep : Bool) :
    merge_maps map1 ((key2, value2) :: rest) deep
      = merge_maps (mergeEntryStep map1 key2 value2 deep) rest deep := by
  simp [merge_maps]

theorem mergeEntryStep_eq (map1 : ValueMap) (key2 : String) (value2 : Value)
    (deep : Bool) :
    ∃ w : Value,
      mergeEntryStep map1 key2 value2 deep = mapInsert map1 key2 w
      ∧ ((deep && (mapGet map1 key2).elim false isMapValue && isMapValue value2) = false
          → w = value2)
      ∧ (∀ c1 c2, deep = true → mapGet map1 key2 = some (Value.map c1)
          → value2 = Value.map c2 → w = Value.map (merge_maps c1 c2 deep)) := by
  cases deep with
  | false =>
    refine ⟨value2, ?_, fun _ => rfl, fun c1 c2 h _ _ => by cases h⟩
    rcases hv : mapGet map1 key2 with _ | v <;> cases value2 <;> simp [mergeEntryStep, hv]
  | true =>
    rcases hv : mapGet map1 key2 with _ | v
    · refine ⟨value2, ?_, fun _ => rfl, ?_⟩
      · cases value2 <;> simp [mergeEntryStep, hv]
      · intro c1 c2 _ h1 _
        exact Option.noConfusion h1
    · cases v with
      | map c1 =>
        cases value2 with
        | map c2 =>
          refine ⟨Value.map (merge_maps c1 c2 true), ?_, ?_, ?_⟩
          · simp [mergeEntryStep, hv]
          · intro hcond
            simp [hv, isMapValue] at hcond
          · intro c1' c2' _ h1 h2
            injection h1 with h1
            injection h1 with h1
            injection h2 with h2
            rw [h1, h2]
        | str s =>
          refine ⟨Value.str s, ?_, fun _ => rfl, fun c1' c2' _ _ h2 => by cases h2⟩
          simp [mergeEntryStep, hv]
        | int i =>
          refine ⟨Value.int i, ?_, fun _ => rfl, fun c1' c2' _ _ h2 => by cases h2⟩
          simp [mergeEntryStep, hv]
        | boolean b =>
          refine ⟨Value.boolean b, ?_, fun _ => rfl, fun c1' c2' _ _ h2 => by cases h2⟩
          simp [mergeEntryStep, hv]
      | str s =>
        refine ⟨value2, ?_, fun _ => rfl, ?_⟩
        · cases value2 <;> simp [mergeEntryStep, hv]
        · intro c1' c2' _ h1 _
          injection h1 with h1
          simp at h1
      | int i =>
        refine ⟨value2, ?_, fun _ => rfl, ?_⟩
        · cases value2 <;> simp [mergeEntryStep, hv]
        · intro c1' c2' _ h1 _
          injection h1 with h1
          simp at h1
      | boolean b =>
        refine ⟨value2, ?_, fun _ => rfl, ?_⟩
        · cases value2 <;> simp [mergeEntryStep, hv]
        · intro c1' c2' _ h1 _
          injection h1 with h1
          simp at h1

end MergeMapsLemmas

/-- C1: `merge_maps` merges the source map (`map2`) into the destination
(`map1`): a key absent from the source keeps its destination binding; when
`deep` holds and both sides bind the key to `Map` values the merge recurses
into the nested pair; in every other case (including a source map value
under `deep = false`) the destination's binding is replaced wholesale by
the source's value — so keys only in the source are added. -/
theorem merge_maps_spec (map1 map2 : ValueMap) (deep : Bool) (k : String)
    (hnd : (map2.map Prod.fst).Nodup) :
    (mapGet map2 k = none → mapGet (merge_maps map1 map2 deep) k = mapGet map1 k)
    ∧ (∀ c1 c2, deep = true → mapGet map1 k = some (Value.map c1)
        → mapGet map2 k = some (Value.map c2)
        → mapGet (merge_maps map1 map2 deep) k
            = some (Value.map (merge_maps c1 c2 deep)))
    ∧ (∀ v2, mapGet map2 k = some v2
        → (deep && (mapGet map1 k).elim false isMapValue && isMapValue v2) = false
        → mapGet (merge_maps map1 map2 deep) k = some v2) := by
  induction map2 generalizing map1 with
  | nil =>
    refine ⟨fun _ => by rw [merge_maps_nil], ?_, ?_⟩
    · intro c1 c2 _ _ h
      simp [mapGet] at h
    · intro v2 h _
      simp [mapGet] at h
  | cons hd rest ih =>
    obtain ⟨key2, value2⟩ := hd
    simp only [List.map_cons, List.nodup_cons] at hnd
    obtain ⟨hk2, hndr⟩ := hnd
    have hrest_none : mapGet rest key2 = none := mapGet_eq_none_of_not_mem _ _ hk2
    obtain ⟨w, hw0, hwd, hwr⟩ := mergeEntryStep_eq map1 key2 value2 deep
    have hw : merge_maps map1 ((key2, value2) :: rest) deep
        = merge_maps (mapInsert map1 key2 w) rest deep := by
      rw [merge_maps_cons, hw0]
    by_cases hkk : k = key2
    · subst hkk
      refine ⟨?_, ?_, ?_⟩
      · intro h
        simp [mapGet] at h
      · intro c1 c2 hdeep h1 h2
        simp only [mapGet, if_pos rfl] at h2
        injection h2 with h2
        rw [hw, (ih (mapInsert map1 k w) hndr).1 hrest_none,
          mapGet_mapInsert_self, hwr c1 c2 hdeep h1 h2]
      · intro v2 h2 hcond
        simp only [mapGet, if_pos rfl] at h2
        injection h2 with h2
        subst h2
        rw [hw, (ih (mapInsert map1 k w) hndr).1 hrest_none,
          mapGet_mapInsert_self, hwd hcond]
    · have hgr : mapGet ((key2, value2) :: rest) k = mapGet rest k := by
        simp [mapGet, hkk]
      have hins : mapGet (mapInsert map1 key2 w) k = mapGet map1 k :=
        mapGet_mapInsert_ne _ _ _ _ hkk
      refine ⟨?_, ?_, ?_⟩
      · intro h
        rw [hgr] at h
        rw [hw, (ih (mapInsert map1 key2 w) hndr).1 h, hins]
      · intro c1 c2 hdeep h1 h2
        rw [hgr] at h2
        rw [hw]
        exact (ih (mapInsert map1 key2 w) hndr).2.1 c1 c2 hdeep (hins.trans h1) h2
      · intro v2 h2 hcond
        rw [hgr] at h2
        rw [hw]
        refine (ih (mapInsert map1 key2 w) hndr).2.2 v2 h2 ?_
        rw [hins]
        exact hcond

/-- Witness for C1 at the deep-merge test case of the source's `check_merge`
test: the shared key `child` of two maps recurses into the nested pair. -/
theorem merge_maps_spec_witness :
    mapGet
        (merge_maps
          [("child", Value.map [("grandchild1", Value.str "val1")]),
            ("key1", Value.str "val1")]
          [("child", Value.map [("grandchild2", Value.str "val2")]),
            ("key2", Value.str "val2")]
          true)
        "child"
      = some (Value.map
          (merge_maps [("grandchild1", Value.str "val1")]
            [("grandchild2", Value.str "val2")] true)) :=
  (merge_maps_spec
      [("child", Value.map [("grandchild1", Value.str "val1")]),
        ("key1", Value.str "val1")]
      [("child", Value.map [("grandchild2", Value.str "val2")]),
        ("key2", Value.str "val2")]
      true "child" (by decide)).2.1
    [("grandchild1", Value.str "val1")] [("grandchild2", Value.str "val2")]
    rfl rfl rfl

/-- C4: `MergeFn::apply` evaluates in order: the `from` expression first
(its error propagates untouched, whatever `deep` is); then the `deep`
expression when present, which must yield a concrete Boolean and defaults
to `false` when absent; then the destination resolution, failing with the
path-naming not-found message when absent; and finally both operands must
be `Map` variants, else the non-map-values message — the success case
merging in place.  Every failure leaves the record unchanged. -/
theorem mergeFn_apply_spec (ev : Event) (to_path : LookupBuf) (fromFn : QueryFn)
    (deepFn : Option QueryFn) :
    (evalDeepParam none ev = Except.ok false)
    ∧ (∀ e, fromFn ev = Except.error e →
        (Statement.mergeFn to_path fromFn deepFn).apply ev
          = ⟨Except.error e, ev, [], []⟩)
    ∧ (∀ fv d qv, fromFn ev = Except.ok fv → deepFn = some d →
        d ev = Except.ok qv → (∀ b, qv ≠ QueryValue.value (Value.boolean b)) →
        (Statement.mergeFn to_path fromFn deepFn).apply ev
          = ⟨Except.error "deep parameter passed to merge is a non-boolean value",
              ev, [], []⟩)
    ∧ (∀ fv b, fromFn ev = Except.ok fv → evalDeepParam deepFn ev = Except.ok b →
        getPath ev to_path = none →
        (Statement.mergeFn to_path fromFn deepFn).apply ev
          = ⟨Except.error
                (s!"parameter {lookupToString to_path} passed to merge is not found"),
              ev, [], []⟩)
    ∧ (∀ fv b tv, fromFn ev = Except.ok fv → evalDeepParam deepFn ev = Except.ok b →
        getPath ev to_path = some tv → bothMapOperands tv fv = false →
        (Statement.mergeFn to_path fromFn deepFn).apply ev
          = ⟨Except.error "parameters passed to merge are non-map values", ev, [], []⟩)
    ∧ (∀ m1 m2 b, fromFn ev = Except.ok (QueryValue.value (Value.map m2)) →
        evalDeepParam deepFn ev = Except.ok b →
        getPath ev to_path = some (Value.map m1) →
        (Statement.mergeFn to_path fromFn deepFn).apply ev
          = ⟨Except.ok (),
              insertPath ev to_path (Value.map (merge_maps m1 m2 b)), [], []⟩) := by
  refine ⟨rfl, ?_, ?_, ?_, ?_, ?_⟩
  · intro e h
    simp [Statement.apply, h]
  · intro fv d qv h1 hd hq hnb
    subst hd
    have hdeep : evalDeepParam (some d) ev
        = Except.error "deep parameter passed to merge is a non-boolean value" := by
      cases qv with
      | value v =>
        cases v with
        | boolean b => exact absurd rfl (hnb b)
        | str s => simp [evalDeepParam, hq]
        | int i => simp [evalDeepParam, hq]
        | map m => simp [evalDeepParam, hq]
      | regex => simp [evalDeepParam, hq]
    simp [Statement.apply, h1, hdeep]
  · intro fv b h1 h2 h3
    simp [Statement.apply, h1, h2, h3]
  · intro fv b tv h1 h2 h3 hbm
    cases tv with
    | map m1 =>
      cases fv with
      | value v =>
        cases v with
        | map m2 => simp [bothMapOperands] at hbm
        | str s => simp [Statement.apply, h1, h2, h3]
        | int i => simp [Statement.apply, h1, h2, h3]
        | boolean bb => simp [Statement.apply, h1, h2, h3]
      | regex => simp [Statement.apply, h1, h2, h3]
    | str s => simp [Statement.apply, h1, h2, h3]
    | int i => simp [Statement.apply, h1, h2, h3]
    | boolean bb => simp [Statement.apply, h1, h2, h3]
  · intro m1 m2 b h1 h2 h3
    simp [Statement.apply, h1, h2, h3]

/-- Witness for C4 at a concrete record: the destination path `to` is
absent, so merge fails with the path-naming not-found message. -/
theorem mergeFn_apply_spec_witness :
    (Statement.mergeFn ["to"]
        (fun _ => Except.ok (QueryValue.value (Value.map []))) none).apply
        [("x", Value.str "1")]
      = ⟨Except.error "parameter to passed to merge is not found",
          [("x", Value.str "1")], [], []⟩ :=
  (mergeFn_apply_spec [("x", Value.str "1")] ["to"]
      (fun _ => Except.ok (QueryValue.value (Value.map []))) none).2.2.2.1
    (QueryValue.value (Value.map [])) false rfl rfl rfl

/-- C6: `IfStatement::apply` fails with exactly
`query returned non-boolean value` whenever the condition evaluates to a
non-Boolean result (any other concrete value or the non-materializable
variant), in which case neither branch runs and the record, diagnostic
output and remove calls are untouched; on a concrete Boolean it applies
exactly the corresponding branch statement. -/
theorem ifStatement_spec (q : QueryFn) (t f : Statement) (ev : Event) :
    (∀ qv, q ev = Except.ok qv → (∀ b, qv ≠ QueryValue.value (Value.boolean b)) →
        (Statement.ifStatement q t f).apply ev
          = ⟨Except.error "query returned non-boolean value", ev, [], []⟩)
    ∧ (q ev = Except.ok (QueryValue.value (Value.boolean true)) →
        (Statement.ifStatement q t f).apply ev = t.apply ev)
    ∧ (q ev = Except.ok (QueryValue.value (Value.boolean false)) →
        (Statement.ifStatement q t f).apply ev = f.apply ev) := by
  refine ⟨?_, ?_, ?_⟩
  · intro qv h hnb
    cases qv with
    | value v =>
      cases v with
      | boolean b => exact absurd rfl (hnb b)
      | str s => simp [Statement.apply, h]
      | int i => simp [Statement.apply, h]
      | map m => simp [Statement.apply, h]
    | regex => simp [Statement.apply, h]
  · intro h
    simp [Statement.apply, h]
  · intro h
    simp [Statement.apply, h]

/-- Witness for C6: a condition evaluating to a string fails with the
fixed message and leaves the concrete record unchanged. -/
theorem ifStatement_spec_witness :
    (Statement.ifStatement (fun _ => Except.ok (QueryValue.value (Value.str "x")))
        Statement.noop Statement.noop).apply []
      = ⟨Except.error "query returned non-boolean value", [], [], []⟩ :=
  (ifStatement_spec (fun _ => Except.ok (QueryValue.value (Value.str "x")))
      Statement.noop Statement.noop []).1
    (QueryValue.value (Value.str "x")) rfl
    (fun b h => by
      injection h with h
      exact Value.noConfusion h)

/-- C8: `LogFn::apply` fails with exactly `Can only log Value parameters`
when the message expression yields a non-Value result; with a concrete
value it never fails, emits the value's lossily-decoded text at the
configured level (defaulting to Info when no level is given), and never
mutates the record. -/
theorem logFn_spec (msgFn : QueryFn) (lvl : Option LogLevel) (ev : Event) :
    (∀ v, msgFn ev = Except.ok (QueryValue.value v) →
        (Statement.logFn msgFn lvl).apply ev
          = ⟨Except.ok (), ev, [(lvl.getD LogLevel.info, valueToLogString v)], []⟩)
    ∧ (∀ qv, msgFn ev = Except.ok qv → (∀ v, qv ≠ QueryValue.value v) →
        (Statement.logFn msgFn lvl).apply ev
          = ⟨Except.error "Can only log Value parameters", ev, [], []⟩) := by
  refine ⟨?_, ?_⟩
  · intro v h
    simp [Statement.apply, h]
  · intro qv h hnv
    cases qv with
    | value v => exact absurd rfl (hnv v)
    | regex => simp [Statement.apply, h]

/-- Witness for C8: logging a concrete string emits it at the default Info
level and leaves the record alone. -/
theorem logFn_spec_witness :
    (Statement.logFn (fun _ => Except.ok (QueryValue.value (Value.str "hello")))
        none).apply []
      = ⟨Except.ok (), [], [(LogLevel.info, valueToLogString (Value.str "hello"))], []⟩ :=
  (logFn_spec (fun _ => Except.ok (QueryValue.value (Value.str "hello"))) none []).1
    (Value.str "hello") rfl

end VectorMapping
